import Mathlib

/-!
Verification of the Secret Materialization Agent (src/app/main.py).

The embedding is shallow: byte strings are `List Nat` (each element < 256),
text is `List Char`, the filesystem is a map from (directory, name) pairs to
optional file contents, and the agent run is modelled as the trace of
filesystem operations (`mkdir` / `write`) that `grab_secrets` performs, in
program order.  The external collaborators (the Azure vault client and the
OpenSSL PKCS12 parser) are parameters of the model, exactly as the spec
treats them (an interface boundary).
-/

set_option maxHeartbeats 1000000

namespace KVA

/-! ## Base64 (Python base64.encodestring semantics, from binascii) -/

/-- The standard base64 alphabet used by Python `base64.encodestring`. -/
def b64Alphabet : List Char :=
  ['A','B','C','D','E','F','G','H','I','J','K','L','M',
   'N','O','P','Q','R','S','T','U','V','W','X','Y','Z',
   'a','b','c','d','e','f','g','h','i','j','k','l','m',
   'n','o','p','q','r','s','t','u','v','w','x','y','z',
   '0','1','2','3','4','5','6','7','8','9','+','/']

/-- Character for a 6-bit value. -/
def charOf (n : Nat) : Char := b64Alphabet.getD n '?'

/-- Inverse lookup in the base64 alphabet. -/
def sextetOf (c : Char) : Option Nat :=
  if c ∈ b64Alphabet then some (b64Alphabet.indexOf c) else none

/-- Core base64 encoding of a byte list: 3 bytes become 4 characters, with
the usual padding for a 1- or 2-byte tail. -/
def encodeB64 : List Nat → List Char
  | a :: b :: c :: rest =>
      charOf (a / 4) :: charOf (a % 4 * 16 + b / 16) ::
        charOf (b % 16 * 4 + c / 64) :: charOf (c % 64) :: encodeB64 rest
  | [a, b] => [charOf (a / 4), charOf (a % 4 * 16 + b / 16), charOf (b % 16 * 4), '=']
  | [a] => [charOf (a / 4), charOf (a % 4 * 16), '=', '=']
  | [] => []

/-- Regroup 6-bit values into bytes (standard base64 decoding core). -/
def decodeSextets : List Nat → List Nat
  | w :: x :: y :: z :: rest =>
      (w * 4 + x / 16) :: (x % 16 * 16 + y / 4) :: (y % 4 * 64 + z) :: decodeSextets rest
  | [w, x, y] => [w * 4 + x / 16, x % 16 * 16 + y / 4]
  | [w, x] => [w * 4 + x / 16]
  | _ => []

/-- Standard base64 decoding of a character string: padding characters are
dropped, the rest are mapped through the alphabet and regrouped into bytes. -/
def decodeB64 (s : List Char) : List Nat :=
  decodeSextets ((s.filter (fun c => c != '=')).filterMap sextetOf)

/-- Chunk worker for `encodestring`; the fuel argument only bounds the
number of 57-byte chunks and is always at least the input length. -/
def encodestringAux : Nat → List Nat → List Char
  | _, [] => []
  | 0, _ :: _ => []
  | fuel + 1, a :: rest =>
      encodeB64 ((a :: rest).take 57) ++ '\n' :: encodestringAux fuel ((a :: rest).drop 57)

/-- Python `base64.encodestring`: the input is processed in 57-byte chunks,
each chunk is base64-encoded (76 characters for a full chunk) and a newline
is appended after every chunk, including the final partial one. -/
def encodestring (B : List Nat) : List Char :=
  encodestringAux B.length B

theorem encodestringAux_congr : ∀ (f1 f2 : Nat) (B : List Nat),
    B.length ≤ f1 → B.length ≤ f2 → encodestringAux f1 B = encodestringAux f2 B
  | f1, f2, [], _, _ => by cases f1 <;> cases f2 <;> rfl
  | 0, _, _ :: _, h1, _ => by simp at h1
  | _ + 1, 0, _ :: _, _, h2 => by simp at h2
  | f1 + 1, f2 + 1, a :: rest, h1, h2 => by
      simp only [encodestringAux]
      have hlen : ((a :: rest).drop 57).length ≤ f1 ∧ ((a :: rest).drop 57).length ≤ f2 := by
        simp only [List.length_drop, List.length_cons] at h1 h2 ⊢
        omega
      rw [encodestringAux_congr f1 f2 ((a :: rest).drop 57) hlen.1 hlen.2]

/-- The recursive unfolding of `encodestring`. -/
theorem encodestring_eq (B : List Nat) : encodestring B =
    if B = [] then [] else encodeB64 (B.take 57) ++ '\n' :: encodestring (B.drop 57) := by
  cases B with
  | nil => rfl
  | cons a rest =>
      rw [if_neg (by simp)]
      show encodestringAux (rest.length + 1) (a :: rest) = _
      simp only [encodestringAux]
      rw [encodestringAux_congr rest.length ((a :: rest).drop 57).length ((a :: rest).drop 57)
        (by simp only [List.length_drop, List.length_cons]; omega) (le_refl _)]
      rfl

/-! ## PEM framing (`_cert_to_pem` in main.py) -/

def pemHeader : List Char := "-----BEGIN CERTIFICATE-----\n".toList

def pemFooter : List Char := "-----END CERTIFICATE-----\n".toList

/-- `_cert_to_pem`: base64-encode the raw certificate bytes with
`base64.encodestring` and glue the literal header and footer lines around
the encoded body. -/
def cert_to_pem (cert : List Nat) : List Char :=
  pemHeader ++ encodestring cert ++ pemFooter

/-- Remove the header line (28 characters including its newline) and the
footer line (the last 26 characters) of a PEM produced by `cert_to_pem`. -/
def stripPemFrame (s : List Char) : List Char :=
  (s.drop 28).take ((s.drop 28).length - 26)

/-! ## Identifier-list parsing (the two loops of `grab_secrets`) -/

/-- Python whitespace characters removed by `str.strip()`. -/
def pyIsSpace (c : Char) : Bool :=
  c == ' ' || c == '\t' || c == '\n' || c == '\r' || c == '\x0b' || c == '\x0c'

/-- Python `str.strip()`: drop leading and trailing whitespace. -/
def pyStrip (t : List Char) : List Char :=
  ((t.dropWhile pyIsSpace).reverse.dropWhile pyIsSpace).reverse

/-- Python `str.partition(':')` restricted to the two components the code
keeps: the part before the first colon and the part after it; a token
without a colon yields the whole token and an empty version. -/
def partitionColon : List Char → List Char × List Char
  | [] => ([], [])
  | c :: rest =>
      if c = ':' then ([], rest)
      else
        let p := partitionColon rest
        (c :: p.1, p.2)

/-- Prepend a character to the first field of a split result. -/
def consHead (c : Char) : List (List Char) → List (List Char)
  | [] => [[c]]
  | t :: ts => (c :: t) :: ts

/-- Python `str.split(';')`: every occurrence of the delimiter separates
fields, so consecutive, leading or trailing delimiters produce empty
fields; the empty string splits to one empty field. -/
def splitSemi : List Char → List (List Char)
  | [] => [[]]
  | c :: rest =>
      if c = ';' then [] :: splitSemi rest
      else consHead c (splitSemi rest)

/-- Per-token processing in the loops: `key_info.strip().partition(':')`. -/
def parseKeyInfo (t : List Char) : List Char × List Char :=
  partitionColon (pyStrip t)

/-- `filter(None, keys.split(';'))` followed by per-token strip/partition:
the parsed (name, version) list for one category. -/
def parseKeys (s : List Char) : List (List Char × List Char) :=
  ((splitSemi s).filter (fun t => t ≠ [])).map parseKeyInfo

/-- Inverse of `splitSemi`, used to state parsing claims: join raw tokens
with a single semicolon between consecutive tokens. -/
def joinSemi : List (List Char) → List Char
  | [] => []
  | [t] => t
  | t :: rest => t ++ ';' :: joinSemi rest

/-! ## Config loader (`_parse_sp_file`) -/

inductive ConfigError
  | missingFile
  | malformed
deriving DecidableEq

structure Config where
  tenant_id : List Char
  client_id : List Char
  client_secret : List Char
deriving DecidableEq

/-- `_parse_sp_file`: the path comes from the environment (`none` = variable
unset); `files` maps a path to `none` when the file does not exist, to
`some none` when its contents are not valid JSON, and to `some (some obj)`
for a parsed JSON object whose string fields are the association list
`obj` (json.load is an external library; its output object is what the
code consumes).  The code reads the three fields `tenantId`,
`aadClientId`, `aadClientSecret`; a missing field raises (modelled as
`ConfigError.malformed`, the spec's taxonomy for this failure). -/
def parse_sp_file (envPath : Option (List Char))
    (files : List Char → Option (Option (List (List Char × List Char)))) :
    Except ConfigError Config :=
  match envPath with
  | none => .error .missingFile
  | some p =>
    match files p with
    | none => .error .missingFile
    | some none => .error .malformed
    | some (some obj) =>
      match obj.lookup "tenantId".toList, obj.lookup "aadClientId".toList,
          obj.lookup "aadClientSecret".toList with
      | some t, some c, some s => .ok ⟨t, c, s⟩
      | _, _, _ => .error .malformed

/-! ## The materializer (`grab_secrets` and `_dump_pfx`) as a trace model -/

inductive Dir
  | secrets
  | certs
  | keys
deriving DecidableEq

inductive Op
  | mkdir (d : Dir)
  | write (d : Dir) (name : List Char) (content : List Char)
deriving DecidableEq

/-- What `client.get_secret` returns: the secret value and the optional key
identifier (`kid`); the code branches on `kid is not None`. -/
structure SecretRecord where
  value : List Char
  kid : Option (List Char)

/-- What `client.get_certificate` returns: the raw certificate bytes. -/
structure CertRecord where
  cer : List Nat

/-- The external collaborators of `grab_secrets`: the vault client and the
OpenSSL PKCS12 pipeline of `_dump_pfx` (`base64.decodestring` +
`crypto.load_pkcs12` + the two PEM dumps), which either produces the
private-key PEM and the certificate PEM or raises (`none` = FormatError). -/
structure World where
  getSecret : List Char → List Char → SecretRecord
  getCertificate : List Char → List Char → CertRecord
  splitPkcs12 : List Char → Option (List Char × List Char)

/-- The SECRETS_KEYS loop: for each parsed (name, version) the secret is
fetched; when `kid` is not None, `_dump_pfx` runs first (writing
`keys/<name>` then `certs/<name>`), aborting the run with no writes for
this entry if the PKCS12 pipeline raises; then the raw value is written to
`secrets/<name>`.  The boolean records whether the loop completed. -/
def secretOps (w : World) : List (List Char × List Char) → List Op × Bool
  | [] => ([], true)
  | e :: rest =>
    match (w.getSecret e.1 e.2).kid with
    | some _ =>
      match w.splitPkcs12 (w.getSecret e.1 e.2).value with
      | none => ([], false)
      | some pc =>
        (Op.write Dir.keys e.1 pc.1 :: Op.write Dir.certs e.1 pc.2 ::
          Op.write Dir.secrets e.1 (w.getSecret e.1 e.2).value :: (secretOps w rest).1,
         (secretOps w rest).2)
    | none =>
      (Op.write Dir.secrets e.1 (w.getSecret e.1 e.2).value :: (secretOps w rest).1,
       (secretOps w rest).2)

/-- The CERTS_KEYS loop: each certificate is fetched and its PEM conversion
written to `certs/<name>`. -/
def certOps (w : World) (es : List (List Char × List Char)) : List Op :=
  es.map fun e => Op.write Dir.certs e.1 (cert_to_pem (w.getCertificate e.1 e.2).cer)

/-- The `os.makedirs` loop at the top of `grab_secrets`: each of the three
output directories is created when it does not already exist, in the order
secrets, certs, keys. -/
def ensureDirs (dirs : Dir → Bool) : List Op :=
  (if dirs Dir.secrets then [] else [Op.mkdir Dir.secrets]) ++
  (if dirs Dir.certs then [] else [Op.mkdir Dir.certs]) ++
  (if dirs Dir.keys then [] else [Op.mkdir Dir.keys])

/-- The contribution of the CERTS_KEYS category: nothing when the variable
is unset, otherwise the writes of the certificate loop. -/
def certsPart (w : World) : Option (List Char) → List Op
  | none => []
  | some ck => certOps w (parseKeys ck)

/-- `grab_secrets` as the trace of filesystem operations it performs, in
program order: directory creation, then the SECRETS_KEYS loop (`none`
means the variable is unset and the category skipped), then — only when
the first loop did not abort — the CERTS_KEYS loop.  The boolean is
success of the whole run. -/
def grab_secrets (dirs : Dir → Bool) (w : World)
    (secrets_keys certs_keys : Option (List Char)) : List Op × Bool :=
  match secrets_keys with
  | none => (ensureDirs dirs ++ certsPart w certs_keys, true)
  | some sk =>
    match secretOps w (parseKeys sk) with
    | (ops, true) => (ensureDirs dirs ++ (ops ++ certsPart w certs_keys), true)
    | (ops, false) => (ensureDirs dirs ++ ops, false)

/-! ## Filesystem semantics of a trace -/

def FS := Dir × List Char → Option (List Char)

def emptyFS : FS := fun _ => none

def writeFS (fs : FS) (d : Dir) (n c : List Char) : FS :=
  fun q => if q = (d, n) then some c else fs q

def applyOps (fs : FS) : List Op → FS
  | [] => fs
  | Op.mkdir _ :: rest => applyOps fs rest
  | Op.write d n c :: rest => applyOps (writeFS fs d n c) rest

/-- The file contents after a full run started on an empty output folder. -/
def runFS (dirs : Dir → Bool) (w : World)
    (secrets_keys certs_keys : Option (List Char)) : FS :=
  applyOps emptyFS (grab_secrets dirs w secrets_keys certs_keys).1

def isMkdirOp : Op → Bool
  | Op.mkdir _ => true
  | Op.write _ _ _ => false

/-! ## Base64 lemmas -/

theorem sextetOf_charOf_fin : ∀ n : Fin 64, sextetOf (charOf n.val) = some n.val := by
  decide

theorem sextetOf_charOf (n : Nat) (h : n < 64) : sextetOf (charOf n) = some n :=
  sextetOf_charOf_fin ⟨n, h⟩

theorem b64Alphabet_length : b64Alphabet.length = 64 := by decide

theorem charOf_fin_ne_pad : ∀ n : Fin 64, charOf n.val ≠ '=' := by decide

theorem charOf_fin_ne_nl : ∀ n : Fin 64, charOf n.val ≠ '\n' := by decide

theorem charOf_big (n : Nat) (h : 64 ≤ n) : charOf n = '?' := by
  unfold charOf
  exact List.getD_eq_default _ _ (by rw [b64Alphabet_length]; omega)

theorem charOf_ne_pad (n : Nat) : charOf n ≠ '=' := by
  by_cases h : n < 64
  · exact charOf_fin_ne_pad ⟨n, h⟩
  · rw [charOf_big n (by omega)]; decide

theorem charOf_ne_nl (n : Nat) : charOf n ≠ '\n' := by
  by_cases h : n < 64
  · exact charOf_fin_ne_nl ⟨n, h⟩
  · rw [charOf_big n (by omega)]; decide

theorem encodeB64_append : ∀ (X Y : List Nat), X.length % 3 = 0 →
    encodeB64 (X ++ Y) = encodeB64 X ++ encodeB64 Y
  | [], _, _ => by simp [encodeB64]
  | [_], _, h => by simp at h
  | [_, _], _, h => by simp at h
  | a :: b :: c :: rest, Y, h => by
      have ih := encodeB64_append rest Y (by
        simp only [List.length_cons] at h; omega)
      simp [encodeB64, ih]

theorem encodeB64_length : ∀ (X : List Nat), X.length % 3 = 0 →
    (encodeB64 X).length = X.length / 3 * 4
  | [], _ => rfl
  | [_], h => by simp at h
  | [_, _], h => by simp at h
  | a :: b :: c :: rest, h => by
      have ih := encodeB64_length rest (by
        simp only [List.length_cons] at h; omega)
      simp only [encodeB64, List.length_cons, ih]
      omega

theorem mem_encodeB64_ne_nl : ∀ (X : List Nat) (c : Char), c ∈ encodeB64 X → c ≠ '\n'
  | [], c, hc => by simp [encodeB64] at hc
  | [a], c, hc => by
      simp only [encodeB64, List.mem_cons, List.not_mem_nil, or_false] at hc
      rcases hc with h | h | h | h <;> subst h
      · exact charOf_ne_nl _
      · exact charOf_ne_nl _
      · decide
      · decide
  | [a, b], c, hc => by
      simp only [encodeB64, List.mem_cons, List.not_mem_nil, or_false] at hc
      rcases hc with h | h | h | h <;> subst h
      · exact charOf_ne_nl _
      · exact charOf_ne_nl _
      · exact charOf_ne_nl _
      · decide
  | a :: b :: d :: rest, c, hc => by
      simp only [encodeB64, List.mem_cons] at hc
      rcases hc with h | h | h | h | h
      · subst h; exact charOf_ne_nl _
      · subst h; exact charOf_ne_nl _
      · subst h; exact charOf_ne_nl _
      · subst h; exact charOf_ne_nl _
      · exact mem_encodeB64_ne_nl rest c h

theorem decodeB64_cons4 (n1 n2 n3 n4 : Nat)
    (h1 : n1 < 64) (h2 : n2 < 64) (h3 : n3 < 64) (h4 : n4 < 64) (s : List Char) :
    decodeB64 (charOf n1 :: charOf n2 :: charOf n3 :: charOf n4 :: s) =
      (n1 * 4 + n2 / 16) :: (n2 % 16 * 16 + n3 / 4) :: (n3 % 4 * 64 + n4) :: decodeB64 s := by
  unfold decodeB64
  rw [List.filter_cons_of_pos (by simp [bne_iff_ne]; exact charOf_ne_pad n1),
    List.filter_cons_of_pos (by simp [bne_iff_ne]; exact charOf_ne_pad n2),
    List.filter_cons_of_pos (by simp [bne_iff_ne]; exact charOf_ne_pad n3),
    List.filter_cons_of_pos (by simp [bne_iff_ne]; exact charOf_ne_pad n4)]
  rw [List.filterMap_cons, List.filterMap_cons, List.filterMap_cons, List.filterMap_cons,
    sextetOf_charOf n1 h1, sextetOf_charOf n2 h2, sextetOf_charOf n3 h3, sextetOf_charOf n4 h4]
  rfl

theorem decodeB64_tail2 (n1 n2 : Nat) (h1 : n1 < 64) (h2 : n2 < 64) :
    decodeB64 [charOf n1, charOf n2, '=', '='] = [n1 * 4 + n2 / 16] := by
  unfold decodeB64
  rw [List.filter_cons_of_pos (by simp [bne_iff_ne]; exact charOf_ne_pad n1),
    List.filter_cons_of_pos (by simp [bne_iff_ne]; exact charOf_ne_pad n2),
    List.filter_cons_of_neg (by decide), List.filter_cons_of_neg (by decide)]
  rw [List.filter_nil, List.filterMap_cons, List.filterMap_cons,
    sextetOf_charOf n1 h1, sextetOf_charOf n2 h2]
  rfl

theorem decodeB64_tail3 (n1 n2 n3 : Nat) (h1 : n1 < 64) (h2 : n2 < 64) (h3 : n3 < 64) :
    decodeB64 [charOf n1, charOf n2, charOf n3, '='] =
      [n1 * 4 + n2 / 16, n2 % 16 * 16 + n3 / 4] := by
  unfold decodeB64
  rw [List.filter_cons_of_pos (by simp [bne_iff_ne]; exact charOf_ne_pad n1),
    List.filter_cons_of_pos (by simp [bne_iff_ne]; exact charOf_ne_pad n2),
    List.filter_cons_of_pos (by simp [bne_iff_ne]; exact charOf_ne_pad n3),
    List.filter_cons_of_neg (by decide)]
  rw [List.filter_nil, List.filterMap_cons, List.filterMap_cons, List.filterMap_cons,
    sextetOf_charOf n1 h1, sextetOf_charOf n2 h2, sextetOf_charOf n3 h3]
  rfl

theorem decode_encodeB64 : ∀ (B : List Nat), (∀ b ∈ B, b < 256) →
    decodeB64 (encodeB64 B) = B
  | [], _ => rfl
  | [a], h => by
      have ha : a < 256 := h a (by simp)
      rw [show encodeB64 [a] = [charOf (a / 4), charOf (a % 4 * 16), '=', '='] from rfl]
      rw [decodeB64_tail2 _ _ (by omega) (by omega)]
      simp only [List.cons.injEq, and_true]
      omega
  | [a, b], h => by
      have ha : a < 256 := h a (by simp)
      have hb : b < 256 := h b (by simp)
      rw [show encodeB64 [a, b] =
        [charOf (a / 4), charOf (a % 4 * 16 + b / 16), charOf (b % 16 * 4), '='] from rfl]
      rw [decodeB64_tail3 _ _ _ (by omega) (by omega) (by omega)]
      simp only [List.cons.injEq, and_true]
      constructor
      · omega
      · omega
  | a :: b :: c :: rest, h => by
      have ha : a < 256 := h a (by simp)
      have hb : b < 256 := h b (by simp)
      have hc : c < 256 := h c (by simp)
      have ih := decode_encodeB64 rest (fun x hx => h x (by simp [hx]))
      rw [show encodeB64 (a :: b :: c :: rest) =
        charOf (a / 4) :: charOf (a % 4 * 16 + b / 16) ::
          charOf (b % 16 * 4 + c / 64) :: charOf (c % 64) :: encodeB64 rest from rfl]
      rw [decodeB64_cons4 _ _ _ _ (by omega) (by omega) (by omega) (by omega)]
      rw [ih]
      simp only [List.cons.injEq, and_true]
      refine ⟨by omega, by omega, by omega⟩

theorem filter_nl_encodestring (B : List Nat) :
    (encodestring B).filter (fun c => c != '\n') = encodeB64 B := by
  rw [encodestring_eq]
  by_cases h : B = []
  · simp [h, encodeB64]
  · rw [if_neg h, List.filter_append,
      List.filter_cons_of_neg (by decide),
      List.filter_eq_self.mpr (fun c hc => by
        simpa [bne_iff_ne] using mem_encodeB64_ne_nl _ c hc),
      filter_nl_encodestring (B.drop 57)]
    by_cases h57 : B.length ≤ 57
    · rw [List.take_of_length_le h57, List.drop_eq_nil_of_le h57]
      simp [encodeB64]
    · rw [← encodeB64_append _ _ (by rw [List.length_take]; omega),
        List.take_append_drop]
termination_by B.length
decreasing_by
  simp only [List.length_drop]
  exact Nat.sub_lt (List.length_pos.mpr h) (by omega)

theorem stripPemFrame_cert_to_pem (B : List Nat) :
    stripPemFrame (cert_to_pem B) = encodestring B := by
  unfold stripPemFrame cert_to_pem
  rw [List.append_assoc, show (28 : Nat) = pemHeader.length from rfl, List.drop_left]
  rw [List.length_append, show pemFooter.length = 26 from rfl,
    Nat.add_sub_cancel, List.take_left]

/-- C5: for every byte string B, converting it with the certificate-to-PEM
rule (`_cert_to_pem`), stripping the BEGIN/END CERTIFICATE header and footer
lines and all newlines, and base64-decoding the remaining body yields
exactly B. -/
theorem c5_pem_roundtrip (B : List Nat) (h : ∀ b ∈ B, b < 256) :
    decodeB64 ((stripPemFrame (cert_to_pem B)).filter (fun c => c != '\n')) = B := by
  rw [stripPemFrame_cert_to_pem, filter_nl_encodestring]
  exact decode_encodeB64 B h

theorem c5_pem_roundtrip_witness :
    decodeB64 ((stripPemFrame (cert_to_pem [77, 97, 110, 255])).filter
      (fun c => c != '\n')) = [77, 97, 110, 255] :=
  c5_pem_roundtrip [77, 97, 110, 255] (by decide)

theorem takeWhile_all_append (f : Char → Bool) :
    ∀ (l1 : List Char) (a : Char) (l2 : List Char),
      (∀ c ∈ l1, f c = true) → f a = false →
      (l1 ++ a :: l2).takeWhile f = l1
  | [], a, l2, _, ha => by simp [List.takeWhile_cons, ha]
  | c :: t, a, l2, h, ha => by
      simp only [List.cons_append, List.takeWhile_cons, h c (by simp), if_true]
      rw [takeWhile_all_append f t a l2 (fun x hx => h x (by simp [hx])) ha]

theorem encodestring_getLast (B : List Nat) (h : B ≠ []) :
    (encodestring B).getLast? = some '\n' := by
  rw [encodestring_eq, if_neg h]
  by_cases h2 : B.drop 57 = []
  · rw [h2, show encodestring [] = [] from rfl]
    exact List.getLast?_concat _
  · rw [List.append_cons, List.getLast?_append,
      encodestring_getLast (B.drop 57) h2]
    rfl
termination_by B.length
decreasing_by
  simp only [List.length_drop]
  exact Nat.sub_lt (List.length_pos.mpr h) (by omega)

/-- C9: the base64 body written by `_cert_to_pem` is wrapped at 76
characters per line (Python `base64.encodestring`, MIME width, with a
newline after the last body line), not at the PEM-standard 64: for any
input of more than 57 bytes the first body line is 76 characters long,
and the body ends with a newline. -/
theorem c9_wrap_width (B : List Nat) (h : 57 < B.length) :
    ((encodestring B).takeWhile (fun c => c != '\n')).length = 76 ∧
    (encodestring B).getLast? = some '\n' := by
  constructor
  · rw [encodestring_eq, if_neg (fun hB => by rw [hB] at h; simp at h)]
    rw [takeWhile_all_append _ _ _ _
      (fun c hc => by simpa [bne_iff_ne] using mem_encodeB64_ne_nl _ c hc) (by decide)]
    rw [encodeB64_length _ (by rw [List.length_take]; omega)]
    rw [List.length_take]
    omega
  · exact encodestring_getLast B (fun hB => by rw [hB] at h; simp at h)

theorem c9_wrap_width_witness :
    ((encodestring (List.replicate 58 7)).takeWhile (fun c => c != '\n')).length = 76 ∧
    (encodestring (List.replicate 58 7)).getLast? = some '\n' :=
  c9_wrap_width (List.replicate 58 7) (by simp)

/-! ## Parsing lemmas -/

theorem splitSemi_no_semi : ∀ (t : List Char), ';' ∉ t → splitSemi t = [t]
  | [], _ => rfl
  | c :: rest, h => by
      have hc : ¬c = ';' := fun e => h (by simp [e])
      have ih := splitSemi_no_semi rest (fun m => h (by simp [m]))
      simp [splitSemi, hc, ih, consHead]

theorem splitSemi_append : ∀ (t w : List Char), ';' ∉ t →
    splitSemi (t ++ ';' :: w) = t :: splitSemi w
  | [], w, _ => by simp [splitSemi]
  | c :: rest, w, h => by
      have hc : ¬c = ';' := fun e => h (by simp [e])
      have ih := splitSemi_append rest w (fun m => h (by simp [m]))
      simp [splitSemi, hc, ih, consHead]

theorem splitSemi_joinSemi : ∀ (ts : List (List Char)), ts ≠ [] →
    (∀ t ∈ ts, ';' ∉ t) → splitSemi (joinSemi ts) = ts
  | [], h, _ => absurd rfl h
  | [t], _, h => by
      rw [show joinSemi [t] = t from rfl]
      exact splitSemi_no_semi t (h t (by simp))
  | t :: t2 :: rest, _, h => by
      rw [show joinSemi (t :: t2 :: rest) = t ++ ';' :: joinSemi (t2 :: rest) from rfl]
      rw [splitSemi_append t _ (h t (by simp))]
      rw [splitSemi_joinSemi (t2 :: rest) (by simp) (fun x hx => h x (by simp [hx]))]

theorem partitionColon_no_colon : ∀ (t : List Char), ':' ∉ t →
    partitionColon t = (t, [])
  | [], _ => rfl
  | c :: rest, h => by
      have hc : ¬c = ':' := fun e => h (by simp [e])
      have ih := partitionColon_no_colon rest (fun m => h (by simp [m]))
      simp [partitionColon, hc, ih]

theorem partitionColon_first : ∀ (nm : List Char), ':' ∉ nm → ∀ ver,
    partitionColon (nm ++ ':' :: ver) = (nm, ver)
  | [], _, ver => by simp [partitionColon]
  | c :: rest, h, ver => by
      have hc : ¬c = ':' := fun e => h (by simp [e])
      have ih := partitionColon_first rest (fun m => h (by simp [m])) ver
      simp [partitionColon, hc, ih]

/-- C6: the identifier list parser yields exactly the non-empty tokens of
the semicolon-delimited list, in original order (empty tokens from
consecutive, leading or trailing delimiters are skipped silently), each
token being split at its first colon into the name and the version, a
token without a colon getting an empty version (meaning latest); e.g.
"a;;b:v2;" parses to (a, latest), (b, v2). -/
theorem c6_parse_tokens (ts : List (List Char)) (hts : ∀ t ∈ ts, ';' ∉ t) :
    parseKeys (joinSemi ts) = (ts.filter (fun t => t ≠ [])).map parseKeyInfo ∧
    (∀ nm ver : List Char, ':' ∉ nm → partitionColon (nm ++ ':' :: ver) = (nm, ver)) ∧
    (∀ t : List Char, ':' ∉ t → partitionColon t = (t, [])) ∧
    parseKeys "a;;b:v2;".toList = [("a".toList, []), ("b".toList, "v2".toList)] := by
  refine ⟨?_, fun nm ver hnm => partitionColon_first nm hnm ver,
    partitionColon_no_colon, by decide⟩
  cases ts with
  | nil => rfl
  | cons t rest =>
      unfold parseKeys
      rw [splitSemi_joinSemi (t :: rest) (by simp) hts]

theorem c6_parse_tokens_witness :
    parseKeys (joinSemi ["a".toList, [], "b:v2".toList, []]) =
      (["a".toList, [], "b:v2".toList, []].filter (fun t => t ≠ [])).map parseKeyInfo :=
  (c6_parse_tokens ["a".toList, [], "b:v2".toList, []] (by decide)).1

/-- C10: tokens are filtered for emptiness before whitespace stripping and
only the whole token is stripped before partitioning at the first colon:
the whitespace-only token in "a; ;b" is kept and parses to an empty name
and empty version, and in " a : v " the whitespace adjacent to the colon
survives inside the name and the version. -/
theorem c10_whitespace_tokens :
    parseKeys "a; ;b".toList = [("a".toList, []), ([], []), ("b".toList, [])] ∧
    parseKeys " a : v ".toList = [("a ".toList, " v".toList)] := by
  decide

/-! ## Config loader theorem -/

/-- C3: `_parse_sp_file` fails when the environment variable is unset or
the file does not exist; for an existing file with valid JSON carrying the
three required fields it returns exactly those fields as the credential
triple; when a required field is missing it fails. -/
theorem c3_config_loader :
    (∀ files, parse_sp_file none files = .error .missingFile) ∧
    (∀ p files, files p = none → parse_sp_file (some p) files = .error .missingFile) ∧
    (∀ p files obj t c s, files p = some (some obj) →
      obj.lookup "tenantId".toList = some t →
      obj.lookup "aadClientId".toList = some c →
      obj.lookup "aadClientSecret".toList = some s →
      parse_sp_file (some p) files = .ok ⟨t, c, s⟩) ∧
    (∀ p files obj, files p = some (some obj) →
      (obj.lookup "tenantId".toList = none ∨ obj.lookup "aadClientId".toList = none ∨
        obj.lookup "aadClientSecret".toList = none) →
      parse_sp_file (some p) files = .error .malformed) := by
  refine ⟨fun files => rfl, fun p files h => by simp only [parse_sp_file, h],
    fun p files obj t c s hf h1 h2 h3 => by simp only [parse_sp_file, hf, h1, h2, h3],
    fun p files obj hf hm => ?_⟩
  simp only [parse_sp_file, hf]
  cases h1 : obj.lookup "tenantId".toList <;>
    cases h2 : obj.lookup "aadClientId".toList <;>
    cases h3 : obj.lookup "aadClientSecret".toList <;>
    try rfl
  rcases hm with h | h | h
  · rw [h1] at h; exact Option.noConfusion h
  · rw [h2] at h; exact Option.noConfusion h
  · rw [h3] at h; exact Option.noConfusion h

def demoFiles : List Char → Option (Option (List (List Char × List Char))) :=
  fun p =>
    if p = "sp.json".toList then
      some (some [("tenantId".toList, "T".toList), ("aadClientId".toList, "C".toList),
        ("aadClientSecret".toList, "S".toList)])
    else none

theorem c3_config_loader_witness :
    parse_sp_file (some "sp.json".toList) demoFiles =
      .ok ⟨"T".toList, "C".toList, "S".toList⟩ ∧
    parse_sp_file (some "absent".toList) demoFiles = .error .missingFile ∧
    parse_sp_file none demoFiles = .error .missingFile :=
  ⟨c3_config_loader.2.2.1 "sp.json".toList demoFiles
      [("tenantId".toList, "T".toList), ("aadClientId".toList, "C".toList),
        ("aadClientSecret".toList, "S".toList)]
      "T".toList "C".toList "S".toList
      (by decide) (by decide) (by decide) (by decide),
    c3_config_loader.2.1 "absent".toList demoFiles (by decide),
    c3_config_loader.1 demoFiles⟩

/-! ## Materializer lemmas -/

theorem applyOps_ensureDirs (fs : FS) (dirs : Dir → Bool) (ops : List Op) :
    applyOps fs (ensureDirs dirs ++ ops) = applyOps fs ops := by
  unfold ensureDirs
  cases dirs Dir.secrets <;> cases dirs Dir.certs <;> cases dirs Dir.keys <;>
    simp [applyOps]

theorem secretOps_no_mkdir (w : World) :
    ∀ (es : List (List Char × List Char)) (e : Op),
      e ∈ (secretOps w es).1 → isMkdirOp e = false
  | [], e, he => by simp [secretOps] at he
  | x :: rest, e, he => by
      rw [secretOps] at he
      cases hk : (w.getSecret x.1 x.2).kid with
      | some k =>
          rw [hk] at he
          cases hsp : w.splitPkcs12 (w.getSecret x.1 x.2).value with
          | none => rw [hsp] at he; simp at he
          | some pc =>
              rw [hsp] at he
              simp only [List.mem_cons] at he
              rcases he with h | h | h | h
              · subst h; rfl
              · subst h; rfl
              · subst h; rfl
              · exact secretOps_no_mkdir w rest e h
      | none =>
          rw [hk] at he
          simp only [List.mem_cons] at he
          rcases he with h | h
          · subst h; rfl
          · exact secretOps_no_mkdir w rest e h

theorem certOps_no_mkdir (w : World) (es : List (List Char × List Char)) :
    ∀ e ∈ certOps w es, isMkdirOp e = false := by
  intro e he
  simp only [certOps, List.mem_map] at he
  obtain ⟨x, _, he⟩ := he
  rw [← he]
  rfl

theorem certsPart_no_mkdir (w : World) (ck : Option (List Char)) :
    ∀ e ∈ certsPart w ck, isMkdirOp e = false := by
  cases ck with
  | none => simp [certsPart]
  | some c => exact certOps_no_mkdir w (parseKeys c)

theorem ensureDirs_all_mkdir (dirs : Dir → Bool) :
    ∀ e ∈ ensureDirs dirs, isMkdirOp e = true := by
  intro e he
  unfold ensureDirs at he
  have step : ∀ (d : Dir) (b : Bool), e ∈ (if b then [] else [Op.mkdir d]) →
      isMkdirOp e = true := by
    intro d b h
    cases b with
    | true => simp at h
    | false => simp at h; subst h; rfl
  rcases List.mem_append.1 he with h | h
  · rcases List.mem_append.1 h with h2 | h2
    · exact step Dir.secrets _ h2
    · exact step Dir.certs _ h2
  · exact step Dir.keys _ h

theorem ensureDirs_covers (dirs : Dir → Bool) (d : Dir) :
    dirs d = true ∨ Op.mkdir d ∈ ensureDirs dirs := by
  cases hd : dirs d
  · right
    cases d <;> rw [ensureDirs] <;> rw [hd] <;>
      simp [List.mem_append]
  · left; rfl

/-- C8: the three output directories `secrets/`, `certs/`, `keys/` are
created when absent at the start of every run, and they all exist (either
pre-existing or created in the mkdir prefix of the trace) before any file
write appears in the trace. -/
theorem c8_dirs_before_writes (dirs : Dir → Bool) (w : World)
    (sk ck : Option (List Char)) :
    ∃ rest, (grab_secrets dirs w sk ck).1 = ensureDirs dirs ++ rest ∧
      (∀ e ∈ ensureDirs dirs, isMkdirOp e = true) ∧
      (∀ e ∈ rest, isMkdirOp e = false) ∧
      (∀ d, dirs d = true ∨ Op.mkdir d ∈ ensureDirs dirs) := by
  unfold grab_secrets
  cases sk with
  | none =>
      exact ⟨certsPart w ck, rfl, ensureDirs_all_mkdir dirs,
        certsPart_no_mkdir w ck, ensureDirs_covers dirs⟩
  | some s =>
      dsimp only
      rcases hso : secretOps w (parseKeys s) with ⟨ops, flag⟩
      have hmem : ∀ e ∈ ops, isMkdirOp e = false := by
        intro e he
        exact secretOps_no_mkdir w (parseKeys s) e (by rw [hso]; exact he)
      cases flag with
      | false =>
          exact ⟨ops, rfl, ensureDirs_all_mkdir dirs, hmem, ensureDirs_covers dirs⟩
      | true =>
          refine ⟨ops ++ certsPart w ck, rfl, ensureDirs_all_mkdir dirs, ?_,
            ensureDirs_covers dirs⟩
          intro e he
          rcases List.mem_append.1 he with h | h
          · exact hmem e h
          · exact certsPart_no_mkdir w ck e h

/-! ## Materialization theorems -/

/-- C1: for a SECRETS_KEYS entry whose fetched secret record has a
non-empty kid (the code's `secret.kid is not None`), a run over that one
entry produces exactly three files — `secrets/<name>` with the raw value,
`certs/<name>` with the split certificate PEM, `keys/<name>` with the
split private-key PEM — and for an entry whose kid is empty only
`secrets/<name>` is produced (no other path is written, so the splitter's
outputs never appear). -/
theorem c1_secret_materialization
    (dirs : Dir → Bool) (w : World) (s n v : List Char)
    (hp : parseKeys s = [(n, v)]) :
    (∀ k pk ct, (w.getSecret n v).kid = some k →
      w.splitPkcs12 (w.getSecret n v).value = some (pk, ct) →
      runFS dirs w (some s) none (Dir.secrets, n) = some (w.getSecret n v).value ∧
      runFS dirs w (some s) none (Dir.certs, n) = some ct ∧
      runFS dirs w (some s) none (Dir.keys, n) = some pk ∧
      ∀ p, p ≠ (Dir.secrets, n) → p ≠ (Dir.certs, n) → p ≠ (Dir.keys, n) →
        runFS dirs w (some s) none p = none) ∧
    ((w.getSecret n v).kid = none →
      runFS dirs w (some s) none (Dir.secrets, n) = some (w.getSecret n v).value ∧
      ∀ p, p ≠ (Dir.secrets, n) → runFS dirs w (some s) none p = none) := by
  constructor
  · intro k pk ct hk hsp
    have h1 : secretOps w [(n, v)] =
        ([Op.write Dir.keys n pk, Op.write Dir.certs n ct,
          Op.write Dir.secrets n (w.getSecret n v).value], true) := by
      simp only [secretOps, hk, hsp]
    have h2 : runFS dirs w (some s) none =
        applyOps emptyFS (ensureDirs dirs ++
          ([Op.write Dir.keys n pk, Op.write Dir.certs n ct,
            Op.write Dir.secrets n (w.getSecret n v).value] ++ certsPart w none)) := by
      unfold runFS grab_secrets
      dsimp only
      rw [hp, h1]
    rw [h2, applyOps_ensureDirs]
    simp only [certsPart, applyOps]
    refine ⟨by simp [writeFS], by simp [writeFS], by simp [writeFS], ?_⟩
    intro p hp1 hp2 hp3
    show writeFS _ Dir.secrets n _ p = none
    unfold writeFS
    rw [if_neg hp1, if_neg hp2, if_neg hp3]
    rfl
  · intro hk
    have h1 : secretOps w [(n, v)] =
        ([Op.write Dir.secrets n (w.getSecret n v).value], true) := by
      simp only [secretOps, hk]
    have h2 : runFS dirs w (some s) none =
        applyOps emptyFS (ensureDirs dirs ++
          ([Op.write Dir.secrets n (w.getSecret n v).value] ++ certsPart w none)) := by
      unfold runFS grab_secrets
      dsimp only
      rw [hp, h1]
    rw [h2, applyOps_ensureDirs]
    simp only [certsPart, applyOps]
    refine ⟨by simp [writeFS], ?_⟩
    intro p hp1
    show writeFS _ Dir.secrets n _ p = none
    unfold writeFS
    rw [if_neg hp1]
    rfl

/-- C4: for a certificate-backed SECRETS_KEYS entry whose value the PKCS12
pipeline cannot parse, the run aborts at that entry with no operation
emitted for it — the run flag is false and, for a run consisting of that
entry, the filesystem is left exactly as it was (none of
`secrets/<name>`, `certs/<name>`, `keys/<name>` is written). -/
theorem c4_splitter_failure
    (dirs : Dir → Bool) (w : World) (s n v : List Char)
    (rest : List (List Char × List Char)) (ck : Option (List Char)) (fs0 : FS)
    (k : List Char)
    (hk : (w.getSecret n v).kid = some k)
    (hsp : w.splitPkcs12 (w.getSecret n v).value = none)
    (hp : parseKeys s = [(n, v)]) :
    secretOps w ((n, v) :: rest) = ([], false) ∧
    (grab_secrets dirs w (some s) ck).2 = false ∧
    ∀ p, applyOps fs0 (grab_secrets dirs w (some s) ck).1 p = fs0 p := by
  have h1 : ∀ r, secretOps w ((n, v) :: r) = ([], false) := by
    intro r
    simp only [secretOps, hk, hsp]
  have h2 : grab_secrets dirs w (some s) ck = (ensureDirs dirs ++ [], false) := by
    unfold grab_secrets
    dsimp only
    rw [hp, h1 []]
  refine ⟨h1 rest, by rw [h2], ?_⟩
  intro p
  rw [h2, applyOps_ensureDirs]
  rfl

/-- C7: for a CERTS_KEYS entry, the file written to `certs/<name>` is
exactly the PEM encoding of the raw bytes the vault returned: the literal
`-----BEGIN CERTIFICATE-----` line, the line-wrapped base64 body, and the
literal `-----END CERTIFICATE-----` line. -/
theorem c7_cert_pem
    (dirs : Dir → Bool) (w : World) (s n v : List Char)
    (hp : parseKeys s = [(n, v)]) :
    runFS dirs w none (some s) (Dir.certs, n) =
      some ("-----BEGIN CERTIFICATE-----\n".toList ++
        encodestring (w.getCertificate n v).cer ++
        "-----END CERTIFICATE-----\n".toList) := by
  have h2 : runFS dirs w none (some s) =
      applyOps emptyFS (ensureDirs dirs ++
        [Op.write Dir.certs n (cert_to_pem (w.getCertificate n v).cer)]) := by
    unfold runFS grab_secrets certsPart
    dsimp only
    rw [hp]
    rfl
  rw [h2, applyOps_ensureDirs]
  simp only [applyOps]
  simp [writeFS, cert_to_pem, pemHeader, pemFooter]

/-- C2 amended: when the same name appears both as a certificate-backed
SECRETS_KEYS entry and as a CERTS_KEYS entry, the CERTS_KEYS loop runs
after the SECRETS_KEYS loop, so the certificate written from the
CERTS_KEYS entry overwrites the splitter's certificate output: the final
contents of `certs/<name>` is the PEM conversion of the fetched
certificate, not the splitter's certificate PEM. -/
theorem c2_certs_overwrite
    (dirs : Dir → Bool) (w : World) (s1 s2 n v1 v2 : List Char)
    (hp1 : parseKeys s1 = [(n, v1)]) (hp2 : parseKeys s2 = [(n, v2)])
    (k pk ct : List Char)
    (hk : (w.getSecret n v1).kid = some k)
    (hsp : w.splitPkcs12 (w.getSecret n v1).value = some (pk, ct)) :
    runFS dirs w (some s1) (some s2) (Dir.certs, n) =
      some (cert_to_pem (w.getCertificate n v2).cer) := by
  have h1 : secretOps w [(n, v1)] =
      ([Op.write Dir.keys n pk, Op.write Dir.certs n ct,
        Op.write Dir.secrets n (w.getSecret n v1).value], true) := by
    simp only [secretOps, hk, hsp]
  have h2 : runFS dirs w (some s1) (some s2) =
      applyOps emptyFS (ensureDirs dirs ++
        ([Op.write Dir.keys n pk, Op.write Dir.certs n ct,
          Op.write Dir.secrets n (w.getSecret n v1).value] ++
          [Op.write Dir.certs n (cert_to_pem (w.getCertificate n v2).cer)])) := by
    unfold runFS grab_secrets certsPart
    dsimp only
    rw [hp1, h1, hp2]
    rfl
  rw [h2, applyOps_ensureDirs]
  simp [applyOps, writeFS]

/-! ## Concrete worlds for witnesses and the C2 counterexample -/

def demoDirs : Dir → Bool := fun _ => false

/-- A vault/OpenSSL model in which the one secret is certificate-backed and
splits cleanly, and the one certificate has raw bytes [0]. -/
def demoWorld : World where
  getSecret := fun _ _ => { value := "VAL".toList, kid := some "K".toList }
  getCertificate := fun _ _ => { cer := [0] }
  splitPkcs12 := fun _ => some ("PK".toList, "CT".toList)

/-- A vault model whose secret value the PKCS12 pipeline rejects. -/
def failWorld : World where
  getSecret := fun _ _ => { value := "BAD".toList, kid := some "K".toList }
  getCertificate := fun _ _ => { cer := [] }
  splitPkcs12 := fun _ => none

/-- A vault model with a plain (non-certificate-backed) secret. -/
def plainWorld : World where
  getSecret := fun _ _ => { value := "hello".toList, kid := none }
  getCertificate := fun _ _ => { cer := [] }
  splitPkcs12 := fun _ => none

/-- C2 counterexample: in `demoWorld` the name "a" is both a
certificate-backed SECRETS_KEYS entry (the splitter emits certificate PEM
"CT") and a CERTS_KEYS entry; the final contents of `certs/a` is the PEM
conversion of the fetched certificate bytes, which differs from the
splitter's certificate output — the claim's "final contents is the
splitter's certificate PEM" is false here. -/
theorem c2_counterexample :
    (demoWorld.getSecret "a".toList []).kid = some "K".toList ∧
    demoWorld.splitPkcs12 (demoWorld.getSecret "a".toList []).value =
      some ("PK".toList, "CT".toList) ∧
    runFS demoDirs demoWorld (some "a".toList) (some "a".toList) (Dir.certs, "a".toList) =
      some (cert_to_pem [0]) ∧
    cert_to_pem [0] ≠ "CT".toList := by
  decide

theorem c2_certs_overwrite_witness :
    runFS demoDirs demoWorld (some "a".toList) (some "a".toList) (Dir.certs, "a".toList) =
      some (cert_to_pem (demoWorld.getCertificate "a".toList []).cer) :=
  c2_certs_overwrite demoDirs demoWorld "a".toList "a".toList "a".toList [] []
    (by decide) (by decide) "K".toList "PK".toList "CT".toList rfl rfl

theorem c1_secret_materialization_witness :
    (runFS demoDirs demoWorld (some "a".toList) none (Dir.secrets, "a".toList) =
        some "VAL".toList ∧
      runFS demoDirs demoWorld (some "a".toList) none (Dir.certs, "a".toList) =
        some "CT".toList ∧
      runFS demoDirs demoWorld (some "a".toList) none (Dir.keys, "a".toList) =
        some "PK".toList) ∧
    (runFS demoDirs plainWorld (some "mysecret".toList) none
        (Dir.secrets, "mysecret".toList) = some "hello".toList ∧
      runFS demoDirs plainWorld (some "mysecret".toList) none
        (Dir.certs, "mysecret".toList) = none) := by
  have h1 := (c1_secret_materialization demoDirs demoWorld "a".toList "a".toList []
    (by decide)).1 "K".toList "PK".toList "CT".toList rfl rfl
  have h2 := (c1_secret_materialization demoDirs plainWorld "mysecret".toList
    "mysecret".toList [] (by decide)).2 rfl
  exact ⟨⟨h1.1, h1.2.1, h1.2.2.1⟩, h2.1, h2.2 _ (by decide)⟩

theorem c4_splitter_failure_witness :
    secretOps failWorld [("a".toList, [])] = ([], false) ∧
    (grab_secrets demoDirs failWorld (some "a".toList) none).2 = false ∧
    applyOps emptyFS (grab_secrets demoDirs failWorld (some "a".toList) none).1
      (Dir.secrets, "a".toList) = emptyFS (Dir.secrets, "a".toList) := by
  have h := c4_splitter_failure demoDirs failWorld "a".toList "a".toList [] []
    none emptyFS "K".toList rfl rfl (by decide)
  exact ⟨h.1, h.2.1, h.2.2 _⟩

theorem c7_cert_pem_witness :
    runFS demoDirs demoWorld none (some "mycert:v1".toList)
      (Dir.certs, "mycert".toList) =
      some ("-----BEGIN CERTIFICATE-----\n".toList ++ encodestring [0] ++
        "-----END CERTIFICATE-----\n".toList) :=
  c7_cert_pem demoDirs demoWorld "mycert:v1".toList "mycert".toList "v1".toList
    (by decide)

end KVA
